import Mathlib

/-!
Verification of the CasperLabs global-state value model and storage API.

Shallow embedding of `execution-engine/common/src/value.rs` (the `Value`
tagged union, its binary codec, and the `Account` entity) and
`execution-engine/contract-ffi/src/contract_api/storage.rs` (the storage
API: `read`/`get_read`, `write`, `add`, `new_turef`).

Byte buffers are `List Nat` with the convention that a byte is `< 256`;
machine integers are `Nat`/`Int` with explicit bounds.  Fallible Rust code
(`from_bytes` returning `Result`, host calls that can revert) is embedded
as `Except`.  The primitive codec (`bytesrepr`), the `Key`/`AccessRights`
types and the host-side access-rights enforcement are not among the
sources; they are modelled from the specification, each such definition
marked `Modelled from the spec:` in its doc comment.
-/

/-- A byte of a serialized buffer: a natural number intended to be below 256. -/
abbrev Byte := Nat

/-- Modelled from the spec: the decode-error taxonomy of the binary codec
(`bytesrepr::Error`): "formatting error" for bad tags/invalid prefixes,
"early end of input" for truncated buffers (§4.1, §7). -/
inductive BrError where
  | earlyEndOfStream
  | formattingError
  deriving DecidableEq

/-- Modelled from the spec: per-URef capability flags over
\x7bREAD, WRITE, ADD\x7d (§3). -/
structure AccessRights where
  read : Bool
  write : Bool
  add : Bool
  deriving DecidableEq

/-- Modelled from the spec: the bit-flag byte of an `AccessRights` value,
READ = bit 0, WRITE = bit 1, ADD = bit 2. -/
def AccessRights.toByte (r : AccessRights) : Byte :=
  (cond r.read 1 0) + (cond r.write 2 0) + (cond r.add 4 0)

/-- Modelled from the spec: reading the bit-flag byte back into the three
capability flags. -/
def AccessRights.ofByte (b : Byte) : AccessRights :=
  ⟨b % 2 == 1, b / 2 % 2 == 1, b / 4 % 2 == 1⟩

/-- Modelled from the spec: the `Key` address space, a discriminated address
into global state with variants `Account(address)`, `URef(uref)`,
`Hash(address)`, a URef being an address plus access rights (§3). -/
inductive Key where
  | Account (addr : List Byte)
  | URef (addr : List Byte) (rights : AccessRights)
  | Hash (addr : List Byte)
  deriving DecidableEq

/-! Primitive codec (`bytesrepr`).

The `ToBytes`/`FromBytes` implementations for primitives live in
`bytesrepr.rs`, which is not among the sources; the rules below follow the
spec (§4.1): fixed-width integers little-endian at fixed size;
variable-length sequences as a 4-byte little-endian length prefix followed
by the concatenation of the element encodings; fixed-size byte arrays with
no prefix, consuming exactly their size or failing on a short buffer. -/

/-- Modelled from the spec: decode of a single byte (`u8`); fails with
early-end-of-input on an empty buffer. -/
def decodeU8 : List Byte → Except BrError (Byte × List Byte)
  | [] => .error .earlyEndOfStream
  | b :: rest => .ok (b, rest)

/-- Modelled from the spec: a `u32` (also the length prefix of every
variable-length sequence) encodes as 4 little-endian bytes. -/
def encodeU32 (n : Nat) : List Byte :=
  [n % 256, n / 256 % 256, n / 65536 % 256, n / 16777216 % 256]

/-- Modelled from the spec: decode of a little-endian `u32`. -/
def decodeU32 : List Byte → Except BrError (Nat × List Byte)
  | b0 :: b1 :: b2 :: b3 :: rest =>
    .ok (b0 + 256 * b1 + 65536 * b2 + 16777216 * b3, rest)
  | _ => .error .earlyEndOfStream

/-- Modelled from the spec: a `u64` encodes as 8 little-endian bytes. -/
def encodeU64 (n : Nat) : List Byte :=
  [n % 256, n / 256 % 256, n / 65536 % 256, n / 16777216 % 256,
   n / 4294967296 % 256, n / 1099511627776 % 256,
   n / 281474976710656 % 256, n / 72057594037927936 % 256]

/-- Modelled from the spec: decode of a little-endian `u64`. -/
def decodeU64 : List Byte → Except BrError (Nat × List Byte)
  | b0 :: b1 :: b2 :: b3 :: b4 :: b5 :: b6 :: b7 :: rest =>
    .ok (b0 + 256 * b1 + 65536 * b2 + 16777216 * b3 +
         4294967296 * b4 + 1099511627776 * b5 +
         281474976710656 * b6 + 72057594037927936 * b7, rest)
  | _ => .error .earlyEndOfStream

/-- Modelled from the spec: an `i32` encodes as its two's-complement value
in 4 little-endian bytes. -/
def encodeI32 (i : Int) : List Byte :=
  encodeU32 (i % 4294967296).toNat

/-- Modelled from the spec: decode of a little-endian two's-complement
`i32`. -/
def decodeI32 (bs : List Byte) : Except BrError (Int × List Byte) :=
  match decodeU32 bs with
  | .error e => .error e
  | .ok (u, rest) =>
    .ok (if u < 2147483648 then (u : Int) else (u : Int) - 4294967296, rest)

/-- Modelled from the spec: a fixed-size byte array decodes by consuming
exactly `n` bytes, failing if fewer remain (§4.1); its encoding is the raw
bytes with no prefix. -/
def decodeFixed (n : Nat) (bs : List Byte) : Except BrError (List Byte × List Byte) :=
  if n ≤ bs.length then .ok (bs.take n, bs.drop n) else .error .earlyEndOfStream

/-- Modelled from the spec: a byte sequence (`Vec<u8>`, and the byte content
of a `String`) encodes as a 4-byte little-endian length prefix followed by
the raw bytes. -/
def encodeBytes (arr : List Byte) : List Byte :=
  encodeU32 arr.length ++ arr

/-- Modelled from the spec: decode of a length-prefixed byte sequence. -/
def decodeBytes (bs : List Byte) : Except BrError (List Byte × List Byte) :=
  match decodeU32 bs with
  | .error e => .error e
  | .ok (n, rest) => decodeFixed n rest

/-- Concatenation of the encodings of the elements of a list, in order. -/
def encodeAll (enc : α → List Byte) : List α → List Byte
  | [] => []
  | x :: xs => enc x ++ encodeAll enc xs

/-- Modelled from the spec: a variable-length sequence encodes as a 4-byte
little-endian length prefix followed by the concatenation of each
element's encoding (§4.1). -/
def encodeSeq (enc : α → List Byte) (l : List α) : List Byte :=
  encodeU32 l.length ++ encodeAll enc l

/-- Decode `n` consecutive elements with the element decoder `dec`,
threading the unconsumed tail. -/
def decodeSeq (dec : List Byte → Except BrError (α × List Byte)) :
    Nat → List Byte → Except BrError (List α × List Byte)
  | 0, bs => .ok ([], bs)
  | n + 1, bs =>
    match dec bs with
    | .error e => .error e
    | .ok (x, rest) =>
      match decodeSeq dec n rest with
      | .error e => .error e
      | .ok (xs, rest2) => .ok (x :: xs, rest2)

/-- Modelled from the spec: decode of a length-prefixed sequence — read the
4-byte count, then that many elements. -/
def decodeList (dec : List Byte → Except BrError (α × List Byte))
    (bs : List Byte) : Except BrError (List α × List Byte) :=
  match decodeU32 bs with
  | .error e => .error e
  | .ok (n, rest) => decodeSeq dec n rest

/-! Key codec.

`key.rs` is not among the sources; its codec is modelled from the spec: a
tagged union encodes as one tag byte followed by the variant's own
encoding, with a closed, stable tag enumeration (§4.1); addresses are
32-byte fixed arrays (§6); a URef carries its access-rights flags
alongside its address (§3). Tags follow the declaration order of §3. -/

/-- Modelled from the spec: serialization of a `Key` — tag byte, then the
32-byte address, and for a URef also the access-rights byte. -/
def Key.to_bytes : Key → List Byte
  | .Account a => 0 :: a
  | .URef a r => 1 :: (a ++ [r.toByte])
  | .Hash a => 2 :: a

/-- Modelled from the spec: deserialization of a `Key`; an unknown tag is a
formatting error. -/
def Key.from_bytes (bs : List Byte) : Except BrError (Key × List Byte) :=
  match decodeU8 bs with
  | .error e => .error e
  | .ok (t, rest) =>
    match t with
    | 0 =>
      match decodeFixed 32 rest with
      | .error e => .error e
      | .ok (a, rem) => .ok (.Account a, rem)
    | 1 =>
      match decodeFixed 32 rest with
      | .error e => .error e
      | .ok (a, rem) =>
        match decodeU8 rem with
        | .error e => .error e
        | .ok (rb, rem2) => .ok (.URef a (AccessRights.ofByte rb), rem2)
    | 2 =>
      match decodeFixed 32 rest with
      | .error e => .error e
      | .ok (a, rem) => .ok (.Hash a, rem)
    | _ => .error .formattingError

/-- An ordered name-to-`Key` table (`BTreeMap<String, Key>`), embedded as
an association list of (name bytes, key) entries kept in the map's key
order with distinct keys; a name (Rust `String`) is its byte content. -/
abbrev UrefMap := List (List Byte × Key)

/-- Modelled from the spec: one map entry encodes its key before its value
(§4.1). -/
def encodeEntry (e : List Byte × Key) : List Byte :=
  encodeBytes e.1 ++ Key.to_bytes e.2

/-- Decode of one (name, key) map entry. -/
def decodeEntry (bs : List Byte) : Except BrError ((List Byte × Key) × List Byte) :=
  match decodeBytes bs with
  | .error e => .error e
  | .ok (n, rest) =>
    match Key.from_bytes rest with
    | .error e => .error e
    | .ok (k, rest2) => .ok ((n, k), rest2)

/-- Modelled from the spec: an ordered map encodes as a 4-byte length
prefix followed by its entries, each key before its value, in the map's
natural sorted key order — the order the entry list is kept in (§4.1). -/
def encodeMap (m : UrefMap) : List Byte :=
  encodeSeq encodeEntry m

/-- Modelled from the spec: decode of a length-prefixed ordered map. -/
def decodeMap (bs : List Byte) : Except BrError (UrefMap × List Byte) :=
  decodeList decodeEntry bs

/-! Account (`value.rs` lines 143–173, 197–225). -/

/-- The `Account` entity of `value.rs`: a 32-byte public key, a `u64`
nonce, and the account's named-key capability table. -/
structure Account where
  public_key : List Byte
  nonce : Nat
  known_urefs : UrefMap
  deriving DecidableEq

/-- Serialization of an `Account` (`impl ToBytes`, `value.rs` 150–158): public key bytes, then
nonce, then the table. -/
def Account.to_bytes (a : Account) : List Byte :=
  a.public_key ++ encodeU64 a.nonce ++ encodeMap a.known_urefs

/-- Deserialization of an `Account` (`impl FromBytes`, `value.rs` 159–173). -/
def Account.from_bytes (bs : List Byte) : Except BrError (Account × List Byte) :=
  match decodeFixed 32 bs with
  | .error e => .error e
  | .ok (public_key, rem1) =>
    match decodeU64 rem1 with
    | .error e => .error e
    | .ok (nonce, rem2) =>
      match decodeMap rem2 with
      | .error e => .error e
      | .ok (known_urefs, rem3) => .ok (⟨public_key, nonce, known_urefs⟩, rem3)

/-! Value (`value.rs` lines 7–141). -/

/-- The `Value` tagged union of `value.rs`: the closed set of storable
global-state values.  A Rust `String` is embedded as its byte content. -/
inductive Value where
  | Int32 (i : Int)
  | ByteArray (arr : List Byte)
  | ListInt32 (arr : List Int)
  | String (s : List Byte)
  | ListString (arr : List (List Byte))
  | NamedKey (n : List Byte) (k : Key)
  | Acct (a : Account)
  | Contract (bytes : List Byte) (known_urefs : UrefMap)
  deriving DecidableEq

/-- Serialization of a `Value` (`impl ToBytes`, `value.rs` 33–98): one tag byte
(INT32_ID = 0, BYTEARRAY_ID = 1, LISTINT32_ID = 2, STRING_ID = 3,
ACCT_ID = 4, CONTRACT_ID = 5, NAMEDKEY_ID = 6, LISTSTRING_ID = 7)
followed by the variant's own encoding. -/
def Value.to_bytes : Value → List Byte
  | .Int32 i => 0 :: encodeI32 i
  | .ByteArray arr => 1 :: encodeBytes arr
  | .ListInt32 arr => 2 :: encodeSeq encodeI32 arr
  | .String s => 3 :: encodeBytes s
  | .Acct a => 4 :: a.to_bytes
  | .Contract bytes known_urefs => 5 :: (encodeBytes bytes ++ encodeMap known_urefs)
  | .NamedKey n k => 6 :: (encodeBytes n ++ k.to_bytes)
  | .ListString arr => 7 :: encodeSeq encodeBytes arr

/-- Deserialization of a `Value` (`impl FromBytes`, `value.rs` 99–141): read the tag byte,
dispatch on it, and fail with a formatting error on any tag outside the
known set. -/
def Value.from_bytes (bs : List Byte) : Except BrError (Value × List Byte) :=
  match decodeU8 bs with
  | .error e => .error e
  | .ok (id, rest) =>
    match id with
    | 0 =>
      match decodeI32 rest with
      | .error e => .error e
      | .ok (i, rem) => .ok (.Int32 i, rem)
    | 1 =>
      match decodeBytes rest with
      | .error e => .error e
      | .ok (arr, rem) => .ok (.ByteArray arr, rem)
    | 2 =>
      match decodeList decodeI32 rest with
      | .error e => .error e
      | .ok (arr, rem) => .ok (.ListInt32 arr, rem)
    | 3 =>
      match decodeBytes rest with
      | .error e => .error e
      | .ok (s, rem) => .ok (.String s, rem)
    | 4 =>
      match Account.from_bytes rest with
      | .error e => .error e
      | .ok (a, rem) => .ok (.Acct a, rem)
    | 5 =>
      match decodeBytes rest with
      | .error e => .error e
      | .ok (bytes, rem1) =>
        match decodeMap rem1 with
        | .error e => .error e
        | .ok (known_urefs, rem2) => .ok (.Contract bytes known_urefs, rem2)
    | 6 =>
      match decodeBytes rest with
      | .error e => .error e
      | .ok (name, rem1) =>
        match Key.from_bytes rem1 with
        | .error e => .error e
        | .ok (key, rem2) => .ok (.NamedKey name key, rem2)
    | 7 =>
      match decodeList decodeBytes rest with
      | .error e => .error e
      | .ok (arr, rem) => .ok (.ListString arr, rem)
    | _ => .error .formattingError

/-! Well-formedness.

The invariants the Rust types carry by construction: bytes are `< 256`,
`i32` values lie in two's-complement range, a `u64` nonce is `< 2^64`,
addresses are exactly 32 bytes, and in-memory collections are small enough
for their `u32` length prefix. -/

/-- A Rust byte buffer: every element is a byte and its length fits the
4-byte length prefix. -/
@[reducible] def bytesWf (l : List Byte) : Prop :=
  l.length < 4294967296 ∧ ∀ b ∈ l, b < 256

/-- A Rust `i32` value: two's-complement 32-bit range. -/
@[reducible] def i32Wf (i : Int) : Prop :=
  -2147483648 ≤ i ∧ i < 2147483648

/-- A 32-byte address. -/
@[reducible] def addrWf (a : List Byte) : Prop :=
  a.length = 32 ∧ ∀ b ∈ a, b < 256

/-- A well-formed `Key`: its address is a 32-byte array. -/
@[reducible] def Key.wf : Key → Prop
  | .Account a => addrWf a
  | .URef a _ => addrWf a
  | .Hash a => addrWf a

/-- A well-formed `BTreeMap<String, Key>` snapshot: length fits the prefix
and every entry is well-formed. -/
@[reducible] def mapWf (m : UrefMap) : Prop :=
  m.length < 4294967296 ∧ ∀ e ∈ m, bytesWf e.1 ∧ Key.wf e.2

/-- A well-formed `Account`. -/
@[reducible] def Account.wf (a : Account) : Prop :=
  addrWf a.public_key ∧ a.nonce < 18446744073709551616 ∧ mapWf a.known_urefs

/-- A well-formed `Value`: each variant's payload is a valid inhabitant of
its Rust type. -/
@[reducible] def Value.wf : Value → Prop
  | .Int32 i => i32Wf i
  | .ByteArray arr => bytesWf arr
  | .ListInt32 arr => arr.length < 4294967296 ∧ ∀ i ∈ arr, i32Wf i
  | .String s => bytesWf s
  | .ListString arr => arr.length < 4294967296 ∧ ∀ s ∈ arr, bytesWf s
  | .NamedKey n k => bytesWf n ∧ k.wf
  | .Acct a => a.wf
  | .Contract bytes known_urefs => bytesWf bytes ∧ mapWf known_urefs

/-! BTreeMap operations and `Account::insert_urefs`.

`Account::insert_urefs` (`value.rs` 206–208) is
`self.known_urefs.append(keys)`.  `BTreeMap` is Rust standard library:
`insert` replaces the value of an existing key; `append` moves every entry
of the argument into `self` (the argument's entries win on key collision)
and leaves the argument empty.  The map is kept as a sorted association
list, lexicographic on name bytes. -/

/-- Lexicographic strict order on name bytes, the `BTreeMap` key order for
strings. -/
def strLt : List Byte → List Byte → Bool
  | [], [] => false
  | [], _ :: _ => true
  | _ :: _, [] => false
  | a :: as, b :: bs => if a < b then true else if b < a then false else strLt as bs

/-- Model of Rust `BTreeMap::insert`: place the entry at its sorted position, replacing
the value of an equal key. -/
def mapInsert : UrefMap → List Byte → Key → UrefMap
  | [], k, v => [(k, v)]
  | (k', v') :: rest, k, v =>
    if strLt k k' then (k, v) :: (k', v') :: rest
    else if k = k' then (k, v) :: rest
    else (k', v') :: mapInsert rest k v

/-- Model of Rust `BTreeMap::get`: the value at a key, if present. -/
def mapLookup : UrefMap → List Byte → Option Key
  | [], _ => none
  | (k', v') :: rest, k => if k = k' then some v' else mapLookup rest k

/-- Model of Rust `BTreeMap::append`: move every entry of `other` into `self`, in order;
on a key collision the entry of `other` overwrites the one of `self`.
Returns the merged map together with the drained (empty) `other`. -/
def btreeAppend (self other : UrefMap) : UrefMap × UrefMap :=
  (other.foldl (fun acc e => mapInsert acc e.1 e.2) self, [])

/-- Embedding of `Account::insert_urefs` (`value.rs` 206–208):
`self.known_urefs.append(keys)`.  The Rust method mutates both the account
and the caller's map; the embedding returns both: the updated account and
the state `keys` is left in. -/
def Account.insert_urefs (a : Account) (keys : UrefMap) : Account × UrefMap :=
  let p := btreeAppend a.known_urefs keys
  ({ a with known_urefs := p.1 }, p.2)

/-! The narrowing accessor `Value::as_account` (`value.rs` 189–194). -/

/-- Embedding of `Value::as_account` (`value.rs` 189–194): the inner account of an `Acct` value; on any other
variant the Rust code is `panic!`, a fatal abort, embedded as `none`. -/
def Value.as_account : Value → Option Account
  | .Acct a => some a
  | _ => none

/-! Storage API (`storage.rs`).

The abort codes a storage operation can revert the invocation with. -/

/-- Modelled from the spec: the fatal abort reasons of the storage layer —
access denial, a `Key` of an unexpected variant, and a bytes-representation
error surfaced by `unwrap_or_revert` (§7). -/
inductive ApiError where
  | accessDenied
  | unexpectedKeyVariant
  | bytesReprError (e : BrError)
  deriving DecidableEq

/-- A typed unforgeable reference (`TURef<T>`): an address plus the access
rights the holder carries for it. -/
structure TURef where
  addr : List Byte
  access_rights : AccessRights
  deriving DecidableEq

/-- An untyped `URef`: address plus rights, as carried inside
`Key::URef`. -/
structure URefV where
  addr : List Byte
  rights : AccessRights
  deriving DecidableEq

/-- The global-state backend visible to one invocation: an association of
addresses to stored values. -/
abbrev GState := List (List Byte × Value)

/-- Store `v` at `addr`, replacing any previous value. -/
def stateUpdate : GState → List Byte → Value → GState
  | [], addr, v => [(addr, v)]
  | (a, w) :: rest, addr, v =>
    if addr = a then (a, v) :: rest else (a, w) :: stateUpdate rest addr v

/-- The value stored at `addr`, if any. -/
def stateLookup : GState → List Byte → Option Value
  | [], _ => none
  | (a, w) :: rest, addr => if addr = a then some w else stateLookup rest addr

/-- Embedding of `read` (`storage.rs` 15–22) with the host-side capability check.
Modelled from the spec: a storage operation on a URef fails with
access-denied unless the URef's rights include the bit the operation
requires: `read` requires READ and nothing more (§3, §8); the check
happens before the backing state is consulted. -/
def readOp (u : URefV) (s : GState) : Except ApiError (Option Value) :=
  if u.rights.read then .ok (stateLookup s u.addr) else .error .accessDenied

/-- Embedding of `write` (`storage.rs` 55–65) with the host-side capability check.
Modelled from the spec: `write` requires the WRITE right; on denial the
invocation aborts with AccessDenied and no state is produced — the
overwrite happens only on the `.ok` path (§3, §8). -/
def writeOp (u : URefV) (v : Value) (s : GState) : Except ApiError GState :=
  if u.rights.write then .ok (stateUpdate s u.addr v) else .error .accessDenied

/-- Embedding of `add` (`storage.rs` 82–93) with the host-side capability check.
Modelled from the spec: `add` requires the ADD right or the WRITE right;
the combination rule applied to the old and new value is backend policy,
passed in as `combine` (§3, §8, §9); on denial no state is produced. -/
def addOp (combine : Option Value → Value → Value) (u : URefV) (v : Value)
    (s : GState) : Except ApiError GState :=
  if u.rights.add || u.rights.write then
    .ok (stateUpdate s u.addr (combine (stateLookup s u.addr) v))
  else .error .accessDenied

/-- Embedding of `get_read` (`storage.rs` 37–52): a strictly negative reported size
means absent (`Ok(None)`); otherwise read back exactly that many bytes
from the host buffer and decode them with `deser`, forwarding a decode
error. -/
def get_read (deser : List Byte → Except BrError α)
    (reported_value_size : Int) (hostBuf : List Byte) : Except BrError (Option α) :=
  if reported_value_size < 0 then .ok none
  else
    match deser (hostBuf.take reported_value_size.toNat) with
    | .error e => .error e
    | .ok t => .ok (some t)

/-- Modelled from the spec: `bytesrepr::deserialize` for `Value` — decode
the buffer as a `Value` (§4.1; trailing bytes are the caller's concern). -/
def deserializeValue (bs : List Byte) : Except BrError Value :=
  match Value.from_bytes bs with
  | .error e => .error e
  | .ok (v, _) => .ok v

/-- Embedding of `new_turef` (`storage.rs` 119–133), from the point where the host has
filled the key buffer: deserialize the buffer as a `Key`; if it is the
`URef` variant, wrap it as a `TURef` (`TURef::from_uref`, modelled from
the spec §4.2: re-validate the variant and carry the rights over);
otherwise revert with `Error::UnexpectedKeyVariant`. -/
def new_turef (keyBytes : List Byte) : Except ApiError TURef :=
  match Key.from_bytes keyBytes with
  | .error e => .error (.bytesReprError e)
  | .ok (k, _) =>
    match k with
    | .URef a r => .ok ⟨a, r⟩
    | _ => .error .unexpectedKeyVariant

/-! Round-trip lemmas for the codec, one per layer.  Each is stated in the
compositional form `decode (encode x ++ r) = .ok (x, r)` so that composite
decoders can chain through the unconsumed tail. -/

/-- Decoding one byte off a non-empty buffer returns it with the rest. -/
theorem decodeU8_cons (b : Byte) (r : List Byte) : decodeU8 (b :: r) = .ok (b, r) := rfl

/-- Round-trip of the little-endian `u32` encoding. -/
theorem decodeU32_encodeU32 (n : Nat) (h : n < 4294967296) (r : List Byte) :
    decodeU32 (encodeU32 n ++ r) = .ok (n, r) := by
  simp only [encodeU32, List.cons_append, List.nil_append, decodeU32,
    Except.ok.injEq, Prod.mk.injEq, and_true]
  omega

/-- Round-trip of the little-endian `u64` encoding. -/
theorem decodeU64_encodeU64 (n : Nat) (h : n < 18446744073709551616) (r : List Byte) :
    decodeU64 (encodeU64 n ++ r) = .ok (n, r) := by
  simp only [encodeU64, List.cons_append, List.nil_append, decodeU64,
    Except.ok.injEq, Prod.mk.injEq, and_true]
  omega

/-- Round-trip of the two's-complement `i32` encoding. -/
theorem decodeI32_encodeI32 (i : Int) (h : i32Wf i) (r : List Byte) :
    decodeI32 (encodeI32 i ++ r) = .ok (i, r) := by
  obtain ⟨h1, h2⟩ := h
  have hnn : 0 ≤ i % 4294967296 := Int.emod_nonneg i (by norm_num)
  have hlt : i % 4294967296 < 4294967296 := Int.emod_lt_of_pos i (by norm_num)
  have hn : ((i % 4294967296).toNat : Int) = i % 4294967296 := Int.toNat_of_nonneg hnn
  rw [encodeI32, decodeI32, decodeU32_encodeU32 _ (by omega)]
  simp only [Except.ok.injEq, Prod.mk.injEq, and_true]
  split <;> omega

/-- A fixed-size array of exactly `n` bytes decodes off the front of a
buffer, leaving the tail. -/
theorem decodeFixed_append (n : Nat) (l r : List Byte) (h : l.length = n) :
    decodeFixed n (l ++ r) = .ok (l, r) := by
  subst h
  rw [decodeFixed, if_pos (by simp), List.take_left, List.drop_left]

/-- Round-trip of the length-prefixed byte-sequence encoding. -/
theorem decodeBytes_encodeBytes (l : List Byte) (h : l.length < 4294967296)
    (r : List Byte) : decodeBytes (encodeBytes l ++ r) = .ok (l, r) := by
  simp only [encodeBytes, List.append_assoc, decodeBytes, decodeU32_encodeU32 l.length h]
  exact decodeFixed_append l.length l r rfl

/-- Decoding `l.length` elements off the concatenated element encodings
recovers the list, provided each element round-trips. -/
theorem decodeSeq_encodeAll (dec : List Byte → Except BrError (α × List Byte))
    (enc : α → List Byte) (l : List α)
    (helem : ∀ x ∈ l, ∀ r, dec (enc x ++ r) = .ok (x, r)) (r : List Byte) :
    decodeSeq dec l.length (encodeAll enc l ++ r) = .ok (l, r) := by
  induction l generalizing r with
  | nil => simp [encodeAll, decodeSeq]
  | cons x xs ih =>
    simp only [encodeAll, List.length_cons, List.append_assoc, decodeSeq,
      helem x (by simp)]
    simp only [ih (fun y hy => helem y (by simp [hy])) r]

/-- Round-trip of the length-prefixed sequence encoding. -/
theorem decodeList_encodeSeq (dec : List Byte → Except BrError (α × List Byte))
    (enc : α → List Byte) (l : List α) (hlen : l.length < 4294967296)
    (helem : ∀ x ∈ l, ∀ r, dec (enc x ++ r) = .ok (x, r)) (r : List Byte) :
    decodeList dec (encodeSeq enc l ++ r) = .ok (l, r) := by
  simp only [encodeSeq, List.append_assoc, decodeList, decodeU32_encodeU32 l.length hlen]
  exact decodeSeq_encodeAll dec enc l helem r

/-- The access-rights flag byte decodes back to the flags it was built
from. -/
theorem ofByte_toByte (a : AccessRights) : AccessRights.ofByte a.toByte = a := by
  obtain ⟨br, bw, ba⟩ := a
  cases br <;> cases bw <;> cases ba <;> decide

/-- Round-trip of the `Key` codec. -/
theorem key_from_bytes_to_bytes (k : Key) (h : k.wf) (r : List Byte) :
    Key.from_bytes (Key.to_bytes k ++ r) = .ok (k, r) := by
  cases k with
  | Account a =>
    simp only [Key.to_bytes, List.cons_append, Key.from_bytes, decodeU8,
      decodeFixed_append 32 a r h.1]
  | URef a rt =>
    simp only [Key.to_bytes, List.cons_append, List.nil_append, List.append_assoc,
      Key.from_bytes, decodeU8, decodeFixed_append 32 a (rt.toByte :: r) h.1,
      decodeU8_cons, ofByte_toByte]
  | Hash a =>
    simp only [Key.to_bytes, List.cons_append, Key.from_bytes, decodeU8,
      decodeFixed_append 32 a r h.1]

/-- Round-trip of one (name, key) map entry. -/
theorem decodeEntry_encodeEntry (e : List Byte × Key) (h : bytesWf e.1 ∧ e.2.wf)
    (r : List Byte) : decodeEntry (encodeEntry e ++ r) = .ok (e, r) := by
  simp only [encodeEntry, List.append_assoc, decodeEntry,
    decodeBytes_encodeBytes e.1 h.1.1, key_from_bytes_to_bytes e.2 h.2]

/-- Round-trip of the ordered-map codec. -/
theorem decodeMap_encodeMap (m : UrefMap) (h : mapWf m) (r : List Byte) :
    decodeMap (encodeMap m ++ r) = .ok (m, r) := by
  exact decodeList_encodeSeq decodeEntry encodeEntry m h.1
    (fun e he r => decodeEntry_encodeEntry e (h.2 e he) r) r

/-- Round-trip of the `Account` codec. -/
theorem account_from_bytes_to_bytes (a : Account) (h : a.wf) (r : List Byte) :
    Account.from_bytes (Account.to_bytes a ++ r) = .ok (a, r) := by
  simp only [Account.to_bytes, List.append_assoc, Account.from_bytes,
    decodeFixed_append 32 a.public_key _ h.1.1,
    decodeU64_encodeU64 a.nonce h.2.1, decodeMap_encodeMap a.known_urefs h.2.2]

/-- Round-trip of the `Value` codec, threading an arbitrary tail. -/
theorem value_from_bytes_to_bytes (v : Value) (h : v.wf) (r : List Byte) :
    Value.from_bytes (Value.to_bytes v ++ r) = .ok (v, r) := by
  cases v with
  | Int32 i =>
    simp only [Value.to_bytes, List.cons_append, Value.from_bytes, decodeU8,
      decodeI32_encodeI32 i h]
  | ByteArray arr =>
    simp only [Value.to_bytes, List.cons_append, Value.from_bytes, decodeU8,
      decodeBytes_encodeBytes arr h.1]
  | ListInt32 arr =>
    simp only [Value.to_bytes, List.cons_append, Value.from_bytes, decodeU8,
      decodeList_encodeSeq decodeI32 encodeI32 arr h.1
        (fun i hi r => decodeI32_encodeI32 i (h.2 i hi) r)]
  | String s =>
    simp only [Value.to_bytes, List.cons_append, Value.from_bytes, decodeU8,
      decodeBytes_encodeBytes s h.1]
  | ListString arr =>
    simp only [Value.to_bytes, List.cons_append, Value.from_bytes, decodeU8,
      decodeList_encodeSeq decodeBytes encodeBytes arr h.1
        (fun s hs => decodeBytes_encodeBytes s (h.2 s hs).1)]
  | NamedKey n k =>
    simp only [Value.to_bytes, List.cons_append, List.append_assoc, Value.from_bytes,
      decodeU8, decodeBytes_encodeBytes n h.1.1, key_from_bytes_to_bytes k h.2]
  | Acct a =>
    simp only [Value.to_bytes, List.cons_append, Value.from_bytes, decodeU8,
      account_from_bytes_to_bytes a h]
  | Contract bytes known_urefs =>
    simp only [Value.to_bytes, List.cons_append, List.append_assoc, Value.from_bytes,
      decodeU8, decodeBytes_encodeBytes bytes h.1.1, decodeMap_encodeMap known_urefs h.2]

/-! Lookup lemmas for the `BTreeMap` model. -/

/-- Looking up the inserted key finds the inserted value. -/
theorem mapLookup_insert_self (m : UrefMap) (k : List Byte) (v : Key) :
    mapLookup (mapInsert m k v) k = some v := by
  induction m with
  | nil => simp [mapInsert, mapLookup]
  | cons e rest ih =>
    obtain ⟨k', v'⟩ := e
    simp only [mapInsert]
    split
    · simp [mapLookup]
    · split
      · simp [mapLookup]
      · next hk =>
        simp only [mapLookup, if_neg hk]
        exact ih

/-- Insertion leaves every other key's lookup unchanged. -/
theorem mapLookup_insert_ne (m : UrefMap) (k : List Byte) (v : Key) (x : List Byte)
    (h : x ≠ k) : mapLookup (mapInsert m k v) x = mapLookup m x := by
  induction m with
  | nil => simp [mapInsert, mapLookup, h]
  | cons e rest ih =>
    obtain ⟨k', v'⟩ := e
    simp only [mapInsert]
    split
    · simp [mapLookup, h]
    · next =>
      split
      · next hkk =>
        subst hkk
        simp [mapLookup, h]
      · simp only [mapLookup]
        split
        · rfl
        · exact ih

/-- A name whose lookup is `none` heads no entry of the table. -/
theorem not_key_of_mapLookup_none (l : UrefMap) (x : List Byte)
    (h : mapLookup l x = none) : ∀ e ∈ l, e.1 ≠ x := by
  induction l with
  | nil => simp
  | cons e rest ih =>
    obtain ⟨k', v'⟩ := e
    simp only [mapLookup] at h
    intro f hf
    rcases List.mem_cons.mp hf with hf | hf
    · subst hf
      intro hx
      rw [if_pos (show x = k' from hx.symm)] at h
      exact Option.noConfusion h
    · intro hx
      by_cases hxk : x = k'
      · rw [if_pos hxk] at h
        exact Option.noConfusion h
      · rw [if_neg hxk] at h
        exact ih h f hf hx

/-- Folding insertions of entries that never touch `x` leaves the lookup of
`x` unchanged. -/
theorem mapLookup_foldl_insert_of_not_key (l : UrefMap) (m : UrefMap) (x : List Byte)
    (h : ∀ e ∈ l, e.1 ≠ x) :
    mapLookup (l.foldl (fun acc e => mapInsert acc e.1 e.2) m) x = mapLookup m x := by
  induction l generalizing m with
  | nil => rfl
  | cons e rest ih =>
    simp only [List.foldl_cons]
    rw [ih _ (fun f hf => h f (by simp [hf])),
      mapLookup_insert_ne _ _ _ _ (fun hx => h e (by simp) hx.symm)]

/-- After folding in a table with pairwise-distinct keys, a key the table
maps to `K` looks up to `K`. -/
theorem mapLookup_foldl_insert_of_mem (l : UrefMap) (m : UrefMap) (x : List Byte) (K : Key)
    (hd : l.Pairwise fun a b => a.1 ≠ b.1) (hl : mapLookup l x = some K) :
    mapLookup (l.foldl (fun acc e => mapInsert acc e.1 e.2) m) x = some K := by
  induction l generalizing m with
  | nil => simp [mapLookup] at hl
  | cons e rest ih =>
    obtain ⟨k', v'⟩ := e
    simp only [List.foldl_cons]
    simp only [mapLookup] at hl
    by_cases hx : x = k'
    · rw [if_pos hx] at hl
      rw [Option.some.injEq] at hl
      subst hl
      subst hx
      rw [mapLookup_foldl_insert_of_not_key rest (mapInsert m x v') x
        (fun f hf => Ne.symm ((List.pairwise_cons.mp hd).1 f hf))]
      exact mapLookup_insert_self m x v'
    · rw [if_neg hx] at hl
      exact ih (mapInsert m k' v') (List.pairwise_cons.mp hd).2 hl

/-! The claims. -/

/-- C1: for every value `v` of the `Value` type (all eight variants),
decoding the encoding round-trips exactly: `Value::from_bytes(v.to_bytes())`
returns `Ok((v, rest))` with `v` equal to the original and `rest` empty,
so the decoder consumes exactly `len(v.to_bytes())` bytes. -/
theorem C1_value_roundtrip (v : Value) (h : v.wf) :
    Value.from_bytes (Value.to_bytes v) = .ok (v, []) := by
  simpa using value_from_bytes_to_bytes v h []

/-- Witness for C1 at a concrete well-formed value of the `NamedKey`
variant (its payload exercises the string, key and access-rights
codecs). -/
theorem C1_value_roundtrip_witness :
    (Value.NamedKey [120] (Key.URef (List.replicate 32 9) ⟨true, false, true⟩)).wf ∧
    Value.from_bytes
        (Value.to_bytes
          (Value.NamedKey [120] (Key.URef (List.replicate 32 9) ⟨true, false, true⟩))) =
      .ok (Value.NamedKey [120] (Key.URef (List.replicate 32 9) ⟨true, false, true⟩), []) :=
  ⟨by decide, C1_value_roundtrip _ (by decide)⟩

/-- C2: for every non-empty byte buffer whose first byte is not one of the
eight known `Value` tags (0 through 7), `Value::from_bytes` returns
`Err(Error::FormattingError)` — it neither panics nor returns a default
value (the embedding is total and hits the catch-all error arm). -/
theorem C2_unknown_tag (b : Nat) (rest : List Byte) (h8 : 8 ≤ b) (h256 : b < 256) :
    Value.from_bytes (b :: rest) = .error .formattingError := by
  obtain ⟨c, rfl⟩ : ∃ c, b = c + 8 := ⟨b - 8, by omega⟩
  rfl

/-- Witness for C2 at the concrete unknown tag 200. -/
theorem C2_unknown_tag_witness :
    8 ≤ 200 ∧ 200 < 256 ∧
    Value.from_bytes (200 :: [1, 2, 3]) = .error .formattingError :=
  ⟨by decide, by decide, C2_unknown_tag 200 [1, 2, 3] (by decide) (by decide)⟩

/-- C3: `Value::Int32(42).to_bytes()` is exactly the five bytes
`[0x00, 0x2A, 0x00, 0x00, 0x00]` (tag 0 then 42 as little-endian i32), and
`Value::from_bytes` on those bytes returns `Ok((Value::Int32(42), []))`
with an empty remainder. -/
theorem C3_int32_42_scenario :
    Value.to_bytes (Value.Int32 42) = [0, 42, 0, 0, 0] ∧
    Value.from_bytes [0, 42, 0, 0, 0] = .ok (Value.Int32 42, []) :=
  ⟨rfl, rfl⟩

/-- C4: every storage operation on a URef whose access rights lack the bit
the operation requires fails with AccessDenied before the state is touched
(the denied operation produces no successor state): `write` without WRITE
fails, `add` without ADD and without WRITE fails, and `read` requires only
READ — whenever the READ bit is set it succeeds, returning the backend
lookup. -/
theorem C4_access_enforcement (u : URefV) (v : Value) (s : GState)
    (combine : Option Value → Value → Value) :
    (u.rights.write = false → writeOp u v s = .error .accessDenied) ∧
    (u.rights.add = false → u.rights.write = false →
      addOp combine u v s = .error .accessDenied) ∧
    (u.rights.read = true → readOp u s = .ok (stateLookup s u.addr)) := by
  refine ⟨fun hw => ?_, fun ha hw => ?_, fun hr => ?_⟩
  · rw [writeOp, if_neg (by simp [hw])]
  · rw [addOp, if_neg (by simp [ha, hw])]
  · rw [readOp, if_pos (by simp [hr])]

/-- Witness for C4 at a URef carrying only the READ right. -/
theorem C4_access_enforcement_witness :
    writeOp ⟨[5], ⟨true, false, false⟩⟩ (Value.Int32 1) [] = .error .accessDenied ∧
    addOp (fun _ w => w) ⟨[5], ⟨true, false, false⟩⟩ (Value.Int32 1) [] =
      .error .accessDenied ∧
    readOp ⟨[5], ⟨true, false, false⟩⟩ [] = .ok none :=
  ⟨(C4_access_enforcement ⟨[5], ⟨true, false, false⟩⟩ (Value.Int32 1) [] (fun _ w => w)).1 rfl,
   (C4_access_enforcement ⟨[5], ⟨true, false, false⟩⟩ (Value.Int32 1) [] (fun _ w => w)).2.1
     rfl rfl,
   (C4_access_enforcement ⟨[5], ⟨true, false, false⟩⟩ (Value.Int32 1) [] (fun _ w => w)).2.2
     rfl⟩

/-- C5: `get_read` (shared by `read` and `read_local`) returns `Ok(None)`
whenever the backend reports a negative value size; otherwise it reads
back that many bytes and decodes them, returning `Ok(Some(t))` when the
decoder succeeds and forwarding the decode error when the bytes are
malformed. -/
theorem C5_read_decode (deser : List Byte → Except BrError Value)
    (size : Int) (buf : List Byte) :
    (size < 0 → get_read deser size buf = .ok none) ∧
    (0 ≤ size →
      (∀ v, deser (buf.take size.toNat) = .ok v →
        get_read deser size buf = .ok (some v)) ∧
      (∀ e, deser (buf.take size.toNat) = .error e →
        get_read deser size buf = .error e)) := by
  refine ⟨fun hneg => ?_, fun hpos => ⟨fun v hv => ?_, fun e he => ?_⟩⟩
  · rw [get_read, if_pos hneg]
  · rw [get_read, if_neg (by omega), hv]
  · rw [get_read, if_neg (by omega), he]

/-- Witness for C5: a negative size is absent; size 5 over the encoding of
`Int32(42)` decodes; size 2 over garbage forwards the decode error. -/
theorem C5_read_decode_witness :
    get_read deserializeValue (-1) [9, 9] = .ok none ∧
    get_read deserializeValue 5 [0, 42, 0, 0, 0] = .ok (some (Value.Int32 42)) ∧
    get_read deserializeValue 2 [0, 42, 0, 0, 0] = .error .earlyEndOfStream :=
  ⟨(C5_read_decode deserializeValue (-1) [9, 9]).1 (by decide),
   ((C5_read_decode deserializeValue 5 [0, 42, 0, 0, 0]).2 (by decide)).1
     (Value.Int32 42) rfl,
   ((C5_read_decode deserializeValue 2 [0, 42, 0, 0, 0]).2 (by decide)).2
     .earlyEndOfStream rfl⟩

/-- C6: `Account::insert_urefs` merges with last-write-wins: if the
account's table maps `x` to `K1` and the incoming table (with the
`BTreeMap` invariant of pairwise-distinct keys) maps `x` to `K2`, the
merged table maps `x` to `K2`; and every name the incoming table does not
mention keeps its previous lookup unchanged. -/
theorem C6_insert_urefs_merge (a : Account) (incoming : UrefMap)
    (x : List Byte) (K1 K2 : Key)
    (hdistinct : incoming.Pairwise fun e f => e.1 ≠ f.1)
    (_hold : mapLookup a.known_urefs x = some K1)
    (hinc : mapLookup incoming x = some K2) :
    mapLookup ((Account.insert_urefs a incoming).1.known_urefs) x = some K2 ∧
    ∀ y, mapLookup incoming y = none →
      mapLookup ((Account.insert_urefs a incoming).1.known_urefs) y =
        mapLookup a.known_urefs y := by
  constructor
  · exact mapLookup_foldl_insert_of_mem incoming a.known_urefs x K2 hdistinct hinc
  · intro y hy
    exact mapLookup_foldl_insert_of_not_key incoming a.known_urefs y
      (not_key_of_mapLookup_none incoming y hy)

/-- Witness for C6: an account knowing `"x" → Hash [1]` merged with an
incoming `"x" → Hash [2]` ends with `"x" → Hash [2]`, and the unrelated
name `[7]` is untouched. -/
theorem C6_insert_urefs_merge_witness :
    mapLookup ((Account.insert_urefs ⟨[], 0, [([120], Key.Hash [1])]⟩
        [([120], Key.Hash [2])]).1.known_urefs) [120] = some (Key.Hash [2]) ∧
    mapLookup ((Account.insert_urefs ⟨[], 0, [([120], Key.Hash [1])]⟩
        [([120], Key.Hash [2])]).1.known_urefs) [7] =
      mapLookup (⟨[], 0, [([120], Key.Hash [1])]⟩ : Account).known_urefs [7] :=
  ⟨(C6_insert_urefs_merge ⟨[], 0, [([120], Key.Hash [1])]⟩ [([120], Key.Hash [2])]
      [120] (Key.Hash [1]) (Key.Hash [2]) (by decide) (by decide) (by decide)).1,
   (C6_insert_urefs_merge ⟨[], 0, [([120], Key.Hash [1])]⟩ [([120], Key.Hash [2])]
      [120] (Key.Hash [1]) (Key.Hash [2]) (by decide) (by decide) (by decide)).2
     [7] (by decide)⟩

/-- C7: when the host-provided buffer deserializes to a `Key` variant other
than `URef` (for example `Hash`), `new_turef` does not return a `TURef`
but aborts with `Error::UnexpectedKeyVariant`; a `TURef` is returned only
when the decoded key is the `URef` variant. -/
theorem C7_new_turef_variant (bs : List Byte) :
    (∀ k rem, Key.from_bytes bs = .ok (k, rem) → (∀ a r, k ≠ Key.URef a r) →
      new_turef bs = .error .unexpectedKeyVariant) ∧
    (∀ t, new_turef bs = .ok t →
      ∃ a r rem, Key.from_bytes bs = .ok (Key.URef a r, rem) ∧ t = ⟨a, r⟩) := by
  constructor
  · intro k rem hk hnot
    rw [new_turef, hk]
    cases k with
    | URef a r => exact absurd rfl (hnot a r)
    | Account a => rfl
    | Hash a => rfl
  · intro t ht
    rw [new_turef] at ht
    cases hk : Key.from_bytes bs with
    | error e => rw [hk] at ht; exact Except.noConfusion ht
    | ok p =>
      obtain ⟨k, rem⟩ := p
      rw [hk] at ht
      cases k with
      | URef a r =>
        refine ⟨a, r, rem, rfl, ?_⟩
        simpa using ht.symm
      | Account a => exact Except.noConfusion ht
      | Hash a => exact Except.noConfusion ht

/-- Witness for C7: the serialized `Hash` key is rejected with
UnexpectedKeyVariant. -/
theorem C7_new_turef_variant_witness :
    Key.from_bytes (Key.to_bytes (Key.Hash (List.replicate 32 3))) =
      .ok (Key.Hash (List.replicate 32 3), []) ∧
    new_turef (Key.to_bytes (Key.Hash (List.replicate 32 3))) =
      .error .unexpectedKeyVariant :=
  ⟨rfl,
   (C7_new_turef_variant (Key.to_bytes (Key.Hash (List.replicate 32 3)))).1
     (Key.Hash (List.replicate 32 3)) [] rfl
     (fun _ _ h => Key.noConfusion h)⟩

/-- C8: `Value::as_account` returns the inner `Account` when the value is
the `Acct` variant, and on every other variant it is the fatal abort path
(the Rust `panic!`, embedded as `none`) — never a silently coerced
result. -/
theorem C8_as_account (v : Value) :
    (∀ a, v = Value.Acct a → Value.as_account v = some a) ∧
    ((∀ a, v ≠ Value.Acct a) → Value.as_account v = none) := by
  constructor
  · intro a ha
    subst ha
    rfl
  · intro h
    cases v with
    | Acct a => exact absurd rfl (h a)
    | Int32 i => rfl
    | ByteArray arr => rfl
    | ListInt32 arr => rfl
    | String s => rfl
    | ListString arr => rfl
    | NamedKey n k => rfl
    | Contract b u => rfl

/-- Witness for C8: the accessor succeeds on an `Acct` value and hits the
abort path on an `Int32` value. -/
theorem C8_as_account_witness :
    Value.as_account (Value.Acct ⟨[], 0, []⟩) = some ⟨[], 0, []⟩ ∧
    Value.as_account (Value.Int32 7) = none :=
  ⟨(C8_as_account (Value.Acct ⟨[], 0, []⟩)).1 ⟨[], 0, []⟩ rfl,
   (C8_as_account (Value.Int32 7)).2 (fun _ h => Value.noConfusion h)⟩

/-- C9: `Account::insert_urefs` drains its argument: after the call the
incoming map is empty — its entries (pairwise-distinct keys, the
`BTreeMap` invariant) having been moved into the account's table. -/
theorem C9_insert_urefs_drains (a : Account) (keys : UrefMap) :
    (Account.insert_urefs a keys).2 = [] ∧
    (keys.Pairwise (fun e f => e.1 ≠ f.1) → ∀ x K, mapLookup keys x = some K →
      mapLookup ((Account.insert_urefs a keys).1.known_urefs) x = some K) := by
  constructor
  · rfl
  · intro hd x K h
    exact mapLookup_foldl_insert_of_mem keys a.known_urefs x K hd h

/-- Witness for C9 at a concrete account and incoming table. -/
theorem C9_insert_urefs_drains_witness :
    (Account.insert_urefs ⟨[], 0, []⟩ [([120], Key.Hash [2])]).2 = [] ∧
    mapLookup ((Account.insert_urefs ⟨[], 0, []⟩
        [([120], Key.Hash [2])]).1.known_urefs) [120] = some (Key.Hash [2]) :=
  ⟨(C9_insert_urefs_drains ⟨[], 0, []⟩ [([120], Key.Hash [2])]).1,
   (C9_insert_urefs_drains ⟨[], 0, []⟩ [([120], Key.Hash [2])]).2 (by decide)
     [120] (Key.Hash [2]) (by decide)⟩

/-- C10: only a strictly negative reported size means absent — at reported
size exactly 0, `get_read` never returns `Ok(None)`: it decodes the empty
byte buffer, returning `Ok(Some(t))` if the decoder accepts zero bytes and
the decode error otherwise. -/
theorem C10_zero_size_decodes (deser : List Byte → Except BrError Value)
    (buf : List Byte) :
    get_read deser 0 buf ≠ .ok none ∧
    (∀ t, deser [] = .ok t → get_read deser 0 buf = .ok (some t)) ∧
    (∀ e, deser [] = .error e → get_read deser 0 buf = .error e) := by
  have hbuf : buf.take (0 : Int).toNat = [] := by simp
  refine ⟨?_, fun t ht => ?_, fun e he => ?_⟩
  · rw [get_read, if_neg (by omega), hbuf]
    cases hd : deser [] <;> simp [hd]
  · rw [get_read, if_neg (by omega), hbuf, ht]
  · rw [get_read, if_neg (by omega), hbuf, he]

/-- Witness for C10: over `Value`, the empty buffer fails with
early-end-of-input, so size 0 surfaces that decode error rather than
`None`; a decoder accepting zero bytes yields `Some`. -/
theorem C10_zero_size_decodes_witness :
    get_read deserializeValue 0 [3] = .error .earlyEndOfStream ∧
    get_read (fun _ => .ok (Value.Int32 0)) 0 [] = .ok (some (Value.Int32 0)) :=
  ⟨(C10_zero_size_decodes deserializeValue [3]).2.2 .earlyEndOfStream rfl,
   (C10_zero_size_decodes (fun _ => .ok (Value.Int32 0)) []).2.1 (Value.Int32 0) rfl⟩
